import Mathlib

/-!
# A shallow embedding of the grpcstub interception-and-response-synthesis engine

Go strings are modelled as lists of characters (`GoStr`), the generic
structured documents (`Message`, Go `map[string]interface{}`) as association
lists over a scalar value type, and gRPC metadata (`metadata.MD`,
`map[string][]string`) as an association list from keys to value lists.

The four call-shape handlers (`createUnaryHandler`,
`createServerStreamingHandler`, `createClientStreamingHandler`,
`createBiStreamingHandler`) are translated as pure state transformers over a
`Server` value: the external transport primitives (decode, `SendHeader`,
`SetTrailer`, `SendMsg`) are modelled as an emission trace that never fails,
and the external codec round trip (protojson marshal / unmarshal) as the
identity on the generic document.  A matched matcher whose `handler` field is
nil dereferences a nil function pointer in Go; this is modelled by an explicit
panic outcome.
-/

namespace Grpcstub

/-- Go strings, modelled byte-for-byte as lists of characters. -/
abbrev GoStr := List Char

/-- Go `strings.TrimPrefix(s, "/")`: drops one leading slash when present. -/
def trimSlash (s : GoStr) : GoStr :=
  match s with
  | '/' :: rest => rest
  | _ => s

/-- Go `strings.Split(s, sep)` for a one-character separator. -/
def goSplit (c : Char) : GoStr → List GoStr
  | [] => [[]]
  | x :: xs =>
    let rest := goSplit c xs
    if x = c then [] :: rest
    else
      match rest with
      | [] => [[x]]
      | h :: t => (x :: h) :: t

/-- Go `strings.Join(xs, sep)`. -/
def goJoin (sep : GoStr) : List GoStr → GoStr
  | [] => []
  | [x] => x
  | x :: y :: t => x ++ sep ++ goJoin sep (y :: t)

/-- Go `strings.ToLower` restricted to the ASCII keys used for metadata. -/
def goToLower (s : GoStr) : GoStr := s.map Char.toLower

/-- A scalar leaf of a generic structured document.  The dispatch engine
treats documents opaquely, so scalar leaves suffice for the model. -/
inductive Val where
  | vnull
  | vbool (b : Bool)
  | vnum (n : Int)
  | vstr (s : GoStr)
deriving DecidableEq, Repr

/-- `type Message map[string]interface{}`: a generic structured document. -/
abbrev Message := List (GoStr × Val)

/-- `metadata.MD`: a multi-map from (lowercased) keys to lists of values. -/
abbrev MD := List (GoStr × List GoStr)

/-- `metadata.MD.Append`: lowercases the key and appends the value to the
key's list, creating the entry when absent. -/
def mdAppend (md : MD) (k v : GoStr) : MD :=
  let key := goToLower k
  if md.any (fun kv => kv.1 == key) then
    md.map (fun kv => if kv.1 == key then (kv.1, kv.2 ++ [v]) else kv)
  else
    md ++ [(key, [v])]

/-- The individual (key, value) pairs of a metadata map, in entry order;
this is the sequence the handlers emit via `SetHeader`/`SendHeader`. -/
def mdPairs (md : MD) : List (GoStr × GoStr) :=
  md.flatMap (fun kv => kv.2.map (fun v => (kv.1, v)))

/-- `grpcstub.Request`: the generic form of one received wire message. -/
structure Request where
  Service : GoStr
  Method : GoStr
  Headers : MD
  Message : Message
deriving DecidableEq, Repr

/-- `status.Status` from the gRPC status package: a code plus a message.
`Status.Err()` is non-nil exactly when the code is not `OK` (0). -/
structure GStatus where
  Code : Nat
  Message : GoStr
deriving DecidableEq, Repr

/-- `codes.NotFound` is 5. -/
def notFoundCode : Nat := 5

/-- `res.Status.Err()` on an optional status pointer: the error when the
pointer is non-nil and the code is not `OK`. -/
def errOf (o : Option GStatus) : Option GStatus :=
  match o with
  | some st => if st.Code != 0 then some st else none
  | none => none

/-- `grpcstub.Response`: the synthesized reply produced by a handler. -/
structure Response where
  Headers : MD
  Messages : List Message
  Trailers : MD
  Status : Option GStatus
deriving DecidableEq, Repr

/-- `NewResponse` returns a new empty response. -/
def NewResponse : Response :=
  { Headers := [], Messages := [], Trailers := [], Status := none }

/-- `grpcstub.matcher`: predicates, the composed handler (nil when no
decorator has been chained yet), and the matcher's own capture log. -/
structure matcher where
  matchFuncs : List (Request → Bool)
  handler : Option (Request → Response)
  requests : List Request

/-- `serviceMatchFunc`. -/
def serviceMatchFunc (service : GoStr) : Request → Bool :=
  fun r => r.Service == trimSlash service

/-- `methodMatchFunc`. -/
def methodMatchFunc (method : GoStr) : Request → Bool :=
  fun r =>
    if !(method.contains '/') then
      r.Method == method
    else
      let splitted := goSplit '/' (trimSlash method)
      let s := goJoin ['/'] splitted.dropLast
      let m := splitted.getLastD []
      r.Service == s && r.Method == m

/-- `matcher.Match`: appends a predicate. -/
def matcher.Match (m : matcher) (fn : Request → Bool) : matcher :=
  { m with matchFuncs := m.matchFuncs ++ [fn] }

/-- `matcher.Service`: appends the service predicate. -/
def matcher.Service (m : matcher) (service : GoStr) : matcher :=
  { m with matchFuncs := m.matchFuncs ++ [serviceMatchFunc service] }

/-- `matcher.Method`: appends the method predicate. -/
def matcher.Method (m : matcher) (method : GoStr) : matcher :=
  { m with matchFuncs := m.matchFuncs ++ [methodMatchFunc method] }

/-- Run a possibly-nil handler chain the way each decorator's closure does:
a nil previous handler starts from `NewResponse`. -/
def runChain (prev : Option (Request → Response)) (r : Request) : Response :=
  match prev with
  | none => NewResponse
  | some p => p r

/-- `matcher.Header`: wraps the previous handler, appending a header. -/
def matcher.Header (m : matcher) (key value : GoStr) : matcher :=
  let prev := m.handler
  { m with handler := some (fun r =>
      let res := runChain prev r
      { res with Headers := mdAppend res.Headers key value }) }

/-- `matcher.Trailer`: wraps the previous handler, appending a trailer. -/
def matcher.Trailer (m : matcher) (key value : GoStr) : matcher :=
  let prev := m.handler
  { m with handler := some (fun r =>
      let res := runChain prev r
      { res with Trailers := mdAppend res.Trailers key value }) }

/-- `matcher.Response`: wraps the previous handler, appending a message. -/
def matcher.Response (m : matcher) (message : Message) : matcher :=
  let prev := m.handler
  { m with handler := some (fun r =>
      let res := runChain prev r
      { res with Messages := res.Messages ++ [message] }) }

/-- `matcher.Status`: wraps the previous handler, setting the status
(the Go argument is a possibly-nil pointer). -/
def matcher.Status (m : matcher) (s : Option GStatus) : matcher :=
  let prev := m.handler
  { m with handler := some (fun r =>
      let res := runChain prev r
      { res with Status := s }) }

/-- `matcher.Handler`: replaces the whole chain with a caller function. -/
def matcher.Handler (m : matcher) (fn : Request → Grpcstub.Response) : matcher :=
  { m with handler := some fn }

/-- `matcher.Requests`: the matcher's own capture log. -/
def matcher.Requests (m : matcher) : List Request := m.requests

/-- The lifecycle states of the server. -/
inductive serverStatus where
  | status_unknown
  | status_start
  | status_starting
  | status_closing
  | status_closed
deriving DecidableEq, Repr

/-- `grpcstub.Server`, restricted to the dispatch and lifecycle state the
engine reads: matcher list, global capture log, the listener (an address
when established), the cached client connection, and the lifecycle state.
The descriptor set, TLS material and `*testing.T` are external. -/
structure Server where
  matchers : List matcher
  requests : List Request
  listener : Option GoStr
  cc : Option Unit
  status : serverStatus

/-- A fresh matcher as built by `Server.Match`/`Service`/`Method`. -/
def newMatcher (fn : Request → Bool) : matcher :=
  { matchFuncs := [fn], handler := none, requests := [] }

/-- `Server.Match`: registers a fresh single-predicate matcher. -/
def Server.Match (s : Server) (fn : Request → Bool) : Server :=
  { s with matchers := s.matchers ++ [newMatcher fn] }

/-- `Server.Service`: registers a fresh service matcher. -/
def Server.Service (s : Server) (service : GoStr) : Server :=
  { s with matchers := s.matchers ++ [newMatcher (serviceMatchFunc service)] }

/-- `Server.Method`: registers a fresh method matcher. -/
def Server.Method (s : Server) (method : GoStr) : Server :=
  { s with matchers := s.matchers ++ [newMatcher (methodMatchFunc method)] }

/-- `Server.Requests`: the global capture log. -/
def Server.Requests (s : Server) : List Request := s.requests

/-- The message `t.Error` receives when the listener is absent. -/
def errNotStarted : GoStr := "server is not started yet".toList

/-- `Server.startServer`: runs on construction; `laddr` models the outcome
of `net.Listen` (an address on success, `none` on failure, which the code
reports via `t.Error` and leaves the listener nil).  The deferred
assignment sets the status to `status_start` on every path. -/
def Server.startServer (s : Server) (laddr : Option GoStr) :
    Server × List GoStr :=
  match laddr with
  | none => ({ s with status := .status_start }, [errNotStarted])
  | some a =>
    ({ s with status := .status_start, listener := some a }, [])

/-- `NewServer` (descriptor loading and TLS setup are external): a zero
server started against the given listen outcome. -/
def NewServer (laddr : Option GoStr) : Server × List GoStr :=
  Server.startServer
    { matchers := [], requests := [], listener := none, cc := none,
      status := .status_unknown } laddr

/-- `Server.Addr`: reports a usage error via `t.Error` and returns the empty
string when the listener is nil; otherwise returns the listener address.
The first component is the list of errors reported to `t`. -/
def Server.Addr (s : Server) : List GoStr × GoStr :=
  match s.listener with
  | none => ([errNotStarted], [])
  | some a => ([], a)

/-- `Server.Conn`: reports a usage error and returns nil when the listener
is nil; otherwise dials the listener (external, modelled as succeeding) and
caches the connection. -/
def Server.Conn (s : Server) : Server × List GoStr × Option Unit :=
  match s.listener with
  | none => (s, [errNotStarted], none)
  | some _ => ({ s with cc := some () }, [], some ())

/-- `Server.Close`: sets the status to closing and, by the deferred
assignment, finally to closed on every path; reports a usage error when the
listener is nil, otherwise closes the cached connection and stops the gRPC
server (external). -/
def Server.Close (s : Server) : Server × List GoStr :=
  match s.listener with
  | none => ({ s with status := .status_closed }, [errNotStarted])
  | some _ => ({ s with status := .status_closed, cc := none }, [])

/-! ## The call-shape handlers -/

/-- The inner predicate loop shared by all four handlers:
`match := true; for fn in matchFuncs { if !fn(r) { match = false } }`. -/
def evalLoop (fns : List (Request → Bool)) (r : Request) : Bool :=
  fns.foldl (fun acc fn => if fn r then acc else false) true

/-- The outcome of a unary call, as observed by the client: the emitted
header and trailer pairs with either the single reply document (for
non-streaming shapes `Messages[0]`, or the schema-default empty document
when `Messages` is empty), an explicit error status, the not-found
failure, or the nil-handler panic. -/
inductive UnaryResult where
  | reply (headers trailers : List (GoStr × GoStr)) (msg : Message)
  | errStatus (headers trailers : List (GoStr × GoStr)) (st : GStatus)
  | notFound
  | panicNilHandler
deriving DecidableEq, Repr

/-- The matcher loop of `createUnaryHandler` (lines 534-575): scans the
matchers in registration order; on the first whose predicates all pass it
appends the request to that matcher's log, runs its handler, emits headers
and trailers, and returns either the error status or the single reply. -/
def unaryScan (r : Request) : List matcher → List matcher × UnaryResult
  | [] => ([], .notFound)
  | m :: rest =>
    if evalLoop m.matchFuncs r then
      let m' := { m with requests := m.requests ++ [r] }
      match m.handler with
      | none => (m' :: rest, .panicNilHandler)
      | some h =>
        let res := h r
        match errOf res.Status with
        | some st =>
          (m' :: rest, .errStatus (mdPairs res.Headers) (mdPairs res.Trailers) st)
        | none =>
          (m' :: rest,
            .reply (mdPairs res.Headers) (mdPairs res.Trailers)
              (res.Messages.headD []))
    else
      let (rest', out) := unaryScan r rest
      (m :: rest', out)

/-- `createUnaryHandler`, applied to one decoded request: records the
request in the global log, then runs the matcher scan. -/
def Server.createUnaryHandler (s : Server) (r : Request) :
    Server × UnaryResult :=
  let s1 := { s with requests := s.requests ++ [r] }
  let (ms, out) := unaryScan r s1.matchers
  ({ s1 with matchers := ms }, out)

/-- One element of the outbound trace of a streaming call. -/
inductive Emit where
  | header (k v : GoStr)
  | trailer (k v : GoStr)
  | msg (m : Message)
deriving DecidableEq, Repr

/-- How a streaming call ends: normal close, an error status from a
matched handler, the not-found failure (bidirectional only), or the
nil-handler panic. -/
inductive StreamResult where
  | closed
  | errStatus (st : GStatus)
  | notFound
  | panicNilHandler
deriving DecidableEq, Repr

/-- Header emissions of a response, one `SendHeader` per pair. -/
def headerEmits (res : Response) : List Emit :=
  (mdPairs res.Headers).map (fun kv => Emit.header kv.1 kv.2)

/-- Trailer emissions of a response, one `SetTrailer` per pair. -/
def trailerEmits (res : Response) : List Emit :=
  (mdPairs res.Trailers).map (fun kv => Emit.trailer kv.1 kv.2)

/-- Message emissions of a response, one `SendMsg` per element. -/
def msgEmits (res : Response) : List Emit :=
  res.Messages.map Emit.msg

/-- The matcher loop of `createServerStreamingHandler` (lines 618-661):
every matcher whose predicates all pass fires in registration order,
emitting its headers, trailers and each queued message; an error status
terminates the stream at once, and the stream closes normally after the
whole list has been processed. -/
def serverStreamScan (r : Request) :
    List matcher → List matcher × List Emit × StreamResult
  | [] => ([], [], .closed)
  | m :: rest =>
    if evalLoop m.matchFuncs r then
      let m' := { m with requests := m.requests ++ [r] }
      match m.handler with
      | none => (m' :: rest, [], .panicNilHandler)
      | some h =>
        let res := h r
        match errOf res.Status with
        | some st => (m' :: rest, headerEmits res ++ trailerEmits res, .errStatus st)
        | none =>
          let (rest', out, result) := serverStreamScan r rest
          (m' :: rest',
            headerEmits res ++ trailerEmits res ++ msgEmits res ++ out, result)
    else
      let (rest', out, result) := serverStreamScan r rest
      (m :: rest', out, result)

/-- `createServerStreamingHandler`, applied to the one decoded request. -/
def Server.createServerStreamingHandler (s : Server) (r : Request) :
    Server × List Emit × StreamResult :=
  let s1 := { s with requests := s.requests ++ [r] }
  let (ms, out, result) := serverStreamScan r s1.matchers
  ({ s1 with matchers := ms }, out, result)

/-- The outcome of a client-streaming call: at most one reply.  An error
status is returned before any header is sent (lines 706-708 precede the
`SendHeader` loop). -/
inductive ClientStreamResult where
  | reply (headers trailers : List (GoStr × GoStr)) (msg : Message)
  | errStatus (st : GStatus)
  | notFound
  | panicNilHandler
deriving DecidableEq, Repr

/-- The inner matcher loop of `createClientStreamingHandler` for one
buffered request (lines 694-733): `none` when no matcher's predicates all
pass, otherwise the outcome of the earliest-registered matching matcher. -/
def clientStreamScanMatchers (r : Request) :
    List matcher → List matcher × Option ClientStreamResult
  | [] => ([], none)
  | m :: rest =>
    if evalLoop m.matchFuncs r then
      let m' := { m with requests := m.requests ++ [r] }
      match m.handler with
      | none => (m' :: rest, some .panicNilHandler)
      | some h =>
        let res := h r
        match errOf res.Status with
        | some st => (m' :: rest, some (.errStatus st))
        | none =>
          (m' :: rest,
            some (.reply (mdPairs res.Headers) (mdPairs res.Trailers)
              (res.Messages.headD [])))
    else
      let (rest', out) := clientStreamScanMatchers r rest
      (m :: rest', out)

/-- The end-of-input loop of `createClientStreamingHandler` (lines
692-735): the buffered requests are scanned in receipt order; the first
(request, matcher) pair that matches determines the single reply, and when
no buffered request matches any matcher the call fails with not-found. -/
def clientStreamScan :
    List Request → List matcher → List matcher × ClientStreamResult
  | [], ms => (ms, .notFound)
  | r :: rs, ms =>
    match clientStreamScanMatchers r ms with
    | (ms', some out) => (ms', out)
    | (ms', none) => clientStreamScan rs ms'

/-- `createClientStreamingHandler`, applied to the list of decoded
requests received before end-of-input.  The code records each request in
the global log at receipt, inside the receive loop, before any matching
happens; the resulting global log is the old log extended by the whole
buffered list. -/
def Server.createClientStreamingHandler (s : Server) (rs : List Request) :
    Server × ClientStreamResult :=
  let s1 := { s with requests := s.requests ++ rs }
  let (ms, out) := clientStreamScan rs s1.matchers
  ({ s1 with matchers := ms }, out)

/-- The verdict of the bidirectional inner matcher loop for one message. -/
inductive BidiStep where
  | noMatch
  | halted (st : GStatus)
  | panicked
  | continues (headerSent : Bool)
deriving DecidableEq, Repr

/-- The inner matcher loop of `createBiStreamingHandler` for one received
message (lines 770-817): the scan stops at the first matcher whose
predicates all pass (`continue L` resumes the outer receive loop), headers
are sent only until the first non-empty header emission latches
`headerSent`, and an error status terminates the stream. -/
def bidiScanMatchers (r : Request) (headerSent : Bool) :
    List matcher → List matcher × List Emit × BidiStep
  | [] => ([], [], .noMatch)
  | m :: rest =>
    if evalLoop m.matchFuncs r then
      let m' := { m with requests := m.requests ++ [r] }
      match m.handler with
      | none => (m' :: rest, [], .panicked)
      | some h =>
        let res := h r
        let hdrs := if headerSent then [] else headerEmits res
        let headerSent' := headerSent || !(mdPairs res.Headers).isEmpty
        match errOf res.Status with
        | some st => (m' :: rest, hdrs ++ trailerEmits res, .halted st)
        | none =>
          (m' :: rest, hdrs ++ trailerEmits res ++ msgEmits res,
            .continues headerSent')
    else
      let (rest', out, step) := bidiScanMatchers r headerSent rest
      (m :: rest', out, step)

/-- The outer receive loop of `createBiStreamingHandler` (lines 744-819):
end-of-input closes the stream normally; each received message is recorded
in the global log and then matched; a message matching no matcher
terminates the stream with not-found.  The second component is the list of
requests recorded in the global log. -/
def bidiLoop (headerSent : Bool) (ms : List matcher) :
    List Request → List matcher × List Request × List Emit × StreamResult
  | [] => (ms, [], [], .closed)
  | r :: rs =>
    let (ms', out, step) := bidiScanMatchers r headerSent ms
    match step with
    | .noMatch => (ms', [r], out, .notFound)
    | .panicked => (ms', [r], out, .panicNilHandler)
    | .halted st => (ms', [r], out, .errStatus st)
    | .continues hs' =>
      let (ms'', recs, out', result) := bidiLoop hs' ms' rs
      (ms'', r :: recs, out ++ out', result)

/-- `createBiStreamingHandler`, applied to the messages the client sends
before half-closing. -/
def Server.createBiStreamingHandler (s : Server) (inputs : List Request) :
    Server × List Emit × StreamResult :=
  let (ms, recs, out, result) := bidiLoop false s.matchers inputs
  ({ s with matchers := ms, requests := s.requests ++ recs }, out, result)

/-! ## Spec-side definitions

These follow the specification's vocabulary (`evaluate`, `firstMatch`,
"every predicate returns true", "earliest-registered") and are compared
with the handler code above. -/

/-- `evaluate(request)`: true iff every predicate in `matchFuncs` returns
true on the request. -/
def matcher.evaluate (m : matcher) (r : Request) : Bool :=
  m.matchFuncs.all (fun fn => fn r)

/-- `firstMatch(request)`: the earliest-registered matcher whose
`evaluate` is true, or none. -/
def firstMatch (ms : List matcher) (r : Request) : Option matcher :=
  ms.find? (fun m => m.evaluate r)

/-- The response a matcher's handler chain produces (empty when no handler
has been installed; the handlers in the code would dereference nil there,
which the scan functions surface as the panic outcome). -/
def responseOf (m : matcher) (r : Request) : Response :=
  runChain m.handler r

/-- What a matched matcher contributes to a unary call. -/
def unaryOutcomeOf (m : matcher) (r : Request) : UnaryResult :=
  match m.handler with
  | none => .panicNilHandler
  | some h =>
    let res := h r
    match errOf res.Status with
    | some st => .errStatus (mdPairs res.Headers) (mdPairs res.Trailers) st
    | none =>
      .reply (mdPairs res.Headers) (mdPairs res.Trailers) (res.Messages.headD [])

/-- What a matched matcher contributes to a client-streaming call. -/
def clientStreamOutcomeOf (m : matcher) (r : Request) : ClientStreamResult :=
  match m.handler with
  | none => .panicNilHandler
  | some h =>
    let res := h r
    match errOf res.Status with
    | some st => .errStatus st
    | none =>
      .reply (mdPairs res.Headers) (mdPairs res.Trailers) (res.Messages.headD [])

/-- The earliest (request, matcher) pair matching under the
client-streaming policy: buffered requests in receipt order, and for each
request the matchers in registration order. -/
def firstMatchingPair (rs : List Request) (ms : List matcher) :
    Option (Request × matcher) :=
  match rs with
  | [] => none
  | r :: rest =>
    match firstMatch ms r with
    | some m => some (r, m)
    | none => firstMatchingPair rest ms

/-- The streamed reply documents of an emission trace, in order. -/
def msgsOf (tr : List Emit) : List Message :=
  tr.filterMap (fun e =>
    match e with
    | .msg m => some m
    | _ => none)

/-- The relation between a matcher before and after one call-shape handler
runs: predicates and handler are untouched, and the matcher's own capture
log grows by a subsequence of the received messages, every one of which
satisfied all of the matcher's predicates. -/
def logDelta (received : List Request) (m m' : matcher) : Prop :=
  m'.matchFuncs = m.matchFuncs ∧ m'.handler = m.handler ∧
  ∃ δ, m'.requests = m.requests ++ δ ∧ δ.Sublist received ∧
    ∀ x ∈ δ, m.evaluate x = true

/-- A matcher whose handler chain is installed and produces a non-error
status on the given request. -/
def cleanFor (r : Request) (m : matcher) : Bool :=
  m.handler.isSome && (errOf (responseOf m r).Status).isNone

/-- A received message that the bidirectional loop can process and then
continue: some matcher matches, and the earliest matching matcher has an
installed handler producing a non-error status. -/
def bidiStepOk (ms : List matcher) (r : Request) : Bool :=
  match firstMatch ms r with
  | some m => cleanFor r m
  | none => false

/-- Following the claim's words (for comparison with `methodMatchFunc`'s
split/join computation): the part of a string after its last slash (the
whole string when it has none). -/
def afterLastSlash (t : GoStr) : GoStr :=
  (t.reverse.takeWhile (fun c => c != '/')).reverse

/-- Following the claim's words: the part of a string before its last
slash (empty when it has none). -/
def beforeLastSlash (t : GoStr) : GoStr :=
  ((t.reverse.dropWhile (fun c => c != '/')).drop 1).reverse

/-- The document `{"x": 1}` of the chaining claim. -/
def xDoc : Message := [("x".toList, Val.vnum 1)]

/-! Concrete fixtures used by the witness theorems. -/

/-- A concrete request. -/
def pingReq : Request :=
  { Service := "svc".toList, Method := "Ping".toList, Headers := [],
    Message := [] }

/-- A predicate that accepts every request. -/
def alwaysTrue : Request → Bool := fun _ => true

/-- A predicate that rejects every request. -/
def alwaysFalse : Request → Bool := fun _ => false

/-- A handler producing an error status with a queued message. -/
def errHandler : Request → Response :=
  fun _ =>
    { Headers := [], Messages := [xDoc], Trailers := [],
      Status := some { Code := 7, Message := "denied".toList } }

/-- A handler queuing the single document numbered 1. -/
def okHandler1 : Request → Response :=
  fun _ =>
    { Headers := [], Messages := [[("n".toList, Val.vnum 1)]], Trailers := [],
      Status := none }

/-- A handler queuing the single document numbered 2. -/
def okHandler2 : Request → Response :=
  fun _ =>
    { Headers := [], Messages := [[("n".toList, Val.vnum 2)]], Trailers := [],
      Status := none }

/-- A matcher that always matches and answers with an error status. -/
def mErr : matcher :=
  { matchFuncs := [alwaysTrue], handler := some errHandler, requests := [] }

/-- A matcher that always matches and queues document 1. -/
def mOk1 : matcher :=
  { matchFuncs := [alwaysTrue], handler := some okHandler1, requests := [] }

/-- A matcher that always matches and queues document 2. -/
def mOk2 : matcher :=
  { matchFuncs := [alwaysTrue], handler := some okHandler2, requests := [] }

/-- A matcher that never matches. -/
def mNever : matcher :=
  { matchFuncs := [alwaysFalse], handler := some okHandler1, requests := [] }

/-- A server with the given matchers and empty logs. -/
def srvOf (ms : List matcher) : Server :=
  { matchers := ms, requests := [], listener := none, cc := none,
    status := .status_unknown }

/-- A matcher for the method `Ping` only. -/
def mPing : matcher :=
  { matchFuncs := [methodMatchFunc "Ping".toList],
    handler := some okHandler1, requests := [] }

/-- A request for a method no registered matcher accepts. -/
def otherReq : Request :=
  { Service := "svc".toList, Method := "Other".toList, Headers := [],
    Message := [] }

/-- Predicates and handler of a matcher are untouched by dispatch. -/
def sameDispatch (m m' : matcher) : Prop :=
  m'.matchFuncs = m.matchFuncs ∧ m'.handler = m.handler

/-- A request as decoded for `routeguide.RouteGuide/GetFeature`. -/
def featureReq : Request :=
  { Service := "routeguide.RouteGuide".toList,
    Method := "GetFeature".toList, Headers := [], Message := [] }

/-- A server that was started successfully (listener established) and then
closed via `Server.Close`. -/
def closedSrv : Server :=
  (Server.Close (NewServer (some "127.0.0.1:4242".toList)).1).1

/-! ## Helper lemmas -/

theorem evalLoop_foldl (fns : List (Request → Bool)) (r : Request) (acc : Bool) :
    fns.foldl (fun a fn => if fn r then a else false) acc
      = (acc && fns.all (fun fn => fn r)) := by
  induction fns generalizing acc with
  | nil => simp
  | cons fn rest ih =>
    rw [List.foldl_cons, List.all_cons]
    cases hfn : fn r
    · rw [if_neg (by decide), ih]
      simp
    · rw [if_pos rfl, ih]
      simp

/-- The predicate loop of the handlers computes the spec's `evaluate`. -/
theorem evalLoop_eq_evaluate (m : matcher) (r : Request) :
    evalLoop m.matchFuncs r = m.evaluate r := by
  unfold evalLoop matcher.evaluate
  rw [evalLoop_foldl]
  simp

/-- The unary matcher loop resolves exactly the spec's `firstMatch`. -/
theorem unaryScan_snd (r : Request) (ms : List matcher) :
    (unaryScan r ms).2 =
      match firstMatch ms r with
      | some m => unaryOutcomeOf m r
      | none => .notFound := by
  induction ms with
  | nil => rfl
  | cons m rest ih =>
    simp only [unaryScan, firstMatch, List.find?, evalLoop_eq_evaluate]
    cases hev : m.evaluate r with
    | false =>
      simp only [Bool.false_eq_true, if_false]
      simpa [firstMatch] using ih
    | true =>
      rw [if_pos rfl]
      unfold unaryOutcomeOf
      cases hh : m.handler with
      | none => simp [hh]
      | some h =>
        simp only [hh]
        cases herr : errOf (h r).Status <;> simp [herr]

/-! ## Claim theorems -/

/-- C1: For every request and every ordered list of registered matchers,
the unary call handler selects the earliest-registered matcher for which
every predicate in its `matchFuncs` returns true on the request (the
outcome is exactly that matcher's contribution); if no matcher's
predicates all pass, the call fails with the not-found outcome. -/
theorem unary_selects_first_match (s : Server) (r : Request) :
    (s.createUnaryHandler r).2 =
      match firstMatch s.matchers r with
      | some m => unaryOutcomeOf m r
      | none => .notFound := by
  simp only [Server.createUnaryHandler]
  exact unaryScan_snd r s.matchers

/-- The requests the bidirectional receive loop records form a prefix of
the incoming message sequence. -/
theorem bidiLoop_recs_take (hs : Bool) (ms : List matcher)
    (inputs : List Request) :
    ∃ k, (bidiLoop hs ms inputs).2.1 = inputs.take k := by
  induction inputs generalizing hs ms with
  | nil => exact ⟨0, rfl⟩
  | cons r rs ih =>
    rcases hscan : bidiScanMatchers r hs ms with ⟨ms', out, step⟩
    cases step with
    | noMatch => exact ⟨1, by simp [bidiLoop, hscan]⟩
    | panicked => exact ⟨1, by simp [bidiLoop, hscan]⟩
    | halted st => exact ⟨1, by simp [bidiLoop, hscan]⟩
    | continues hs' =>
      obtain ⟨k, hk⟩ := ih hs' ms'
      refine ⟨k + 1, ?_⟩
      simp [bidiLoop, hscan, hk]

/-- C2: for every call shape, every received (decoded) message is appended
to the server's global capture log exactly once, in receipt order: the
unary and server-streaming handlers append their single request, the
client-streaming handler appends the whole buffered sequence, and the
bidirectional handler appends exactly the prefix of the incoming sequence
it received before terminating. -/
theorem capture_log_records_every_message (s : Server) (r : Request)
    (rs inputs : List Request) :
    (s.createUnaryHandler r).1.requests = s.requests ++ [r] ∧
    (s.createServerStreamingHandler r).1.requests = s.requests ++ [r] ∧
    (s.createClientStreamingHandler rs).1.requests = s.requests ++ rs ∧
    ∃ k, (s.createBiStreamingHandler inputs).1.requests
        = s.requests ++ inputs.take k := by
  refine ⟨?_, ?_, ?_, ?_⟩
  · simp [Server.createUnaryHandler]
  · simp [Server.createServerStreamingHandler]
  · simp [Server.createClientStreamingHandler]
  · obtain ⟨k, hk⟩ := bidiLoop_recs_take false s.matchers inputs
    refine ⟨k, ?_⟩
    rcases hb : bidiLoop false s.matchers inputs with ⟨ms, recs, out, result⟩
    rw [hb] at hk
    simp only at hk
    simp [Server.createBiStreamingHandler, hb, hk]

/-- C3: handler decorator chaining applies mutations in declaration order,
independently of invocation time: on a matcher with no previously
installed handler, chaining `Header("a","1")`, then `Response({"x":1})`,
then `Header("b","2")` yields a handler which, invoked on any request,
produces a response whose headers map a to 1 and b to 2 and whose message
list is exactly `[{"x": 1}]`. -/
theorem chain_decl_order (m : matcher) (hm : m.handler = none) (r : Request) :
    responseOf
      (((m.Header "a".toList "1".toList).Response xDoc).Header
        "b".toList "2".toList) r =
      { Headers := [("a".toList, ["1".toList]), ("b".toList, ["2".toList])],
        Messages := [xDoc], Trailers := [], Status := none } := by
  simp only [responseOf, matcher.Header, matcher.Response, hm, runChain]
  decide

/-- Witness for C3 at a concrete fresh matcher and request. -/
theorem chain_decl_order_witness :
    (newMatcher (fun _ => true)).handler = none ∧
    responseOf
      ((((newMatcher (fun _ => true)).Header "a".toList "1".toList).Response
        xDoc).Header "b".toList "2".toList)
      { Service := [], Method := [], Headers := [], Message := [] } =
      { Headers := [("a".toList, ["1".toList]), ("b".toList, ["2".toList])],
        Messages := [xDoc], Trailers := [], Status := none } :=
  ⟨rfl, chain_decl_order (newMatcher (fun _ => true)) rfl
    { Service := [], Method := [], Headers := [], Message := [] }⟩

/-- The client-streaming inner matcher loop resolves the spec's
`firstMatch` for one buffered request. -/
theorem clientStreamScanMatchers_snd (r : Request) (ms : List matcher) :
    (clientStreamScanMatchers r ms).2 =
      (firstMatch ms r).map (fun m => clientStreamOutcomeOf m r) := by
  induction ms with
  | nil => rfl
  | cons m rest ih =>
    simp only [clientStreamScanMatchers, firstMatch, List.find?,
      evalLoop_eq_evaluate]
    cases hev : m.evaluate r with
    | false =>
      simp only [Bool.false_eq_true, if_false]
      simpa [firstMatch] using ih
    | true =>
      rw [if_pos rfl]
      unfold clientStreamOutcomeOf
      cases hh : m.handler with
      | none => simp [hh]
      | some h =>
        simp only [hh]
        cases herr : errOf (h r).Status <;> simp [hh, herr]

/-- When no matcher matches a buffered request, the inner loop leaves the
matcher list untouched. -/
theorem clientStreamScanMatchers_none_fst (r : Request) (ms : List matcher)
    (h : firstMatch ms r = none) :
    (clientStreamScanMatchers r ms).1 = ms := by
  induction ms with
  | nil => rfl
  | cons m rest ih =>
    simp only [firstMatch, List.find?] at h
    cases hev : m.evaluate r with
    | true => rw [hev] at h; simp at h
    | false =>
      rw [hev] at h
      simp only at h
      simp only [clientStreamScanMatchers, evalLoop_eq_evaluate, hev,
        Bool.false_eq_true, if_false]
      rw [ih (by rwa [firstMatch])]

/-- The client-streaming end-of-input loop resolves the earliest
(request, matcher) pair in receipt/registration order. -/
theorem clientStreamScan_snd (rs : List Request) (ms : List matcher) :
    (clientStreamScan rs ms).2 =
      match firstMatchingPair rs ms with
      | some (r, m) => clientStreamOutcomeOf m r
      | none => .notFound := by
  induction rs generalizing ms with
  | nil => rfl
  | cons r rest ih =>
    rcases hscan : clientStreamScanMatchers r ms with ⟨ms', out⟩
    have hsnd := clientStreamScanMatchers_snd r ms
    rw [hscan] at hsnd
    simp only at hsnd
    cases hfm : firstMatch ms r with
    | some m =>
      rw [hfm] at hsnd
      simp at hsnd
      simp only [clientStreamScan, hscan, hsnd, firstMatchingPair, hfm]
    | none =>
      rw [hfm] at hsnd
      simp at hsnd
      have hfst : ms' = ms := by
        have h0 := clientStreamScanMatchers_none_fst r ms hfm
        rw [hscan] at h0
        simpa using h0
      simp only [clientStreamScan, hscan, hsnd, firstMatchingPair, hfm, hfst]
      exact ih ms

/-- C4: for every client-streaming call, after end-of-input the buffered
requests are scanned in receipt order, and for each the matchers in
registration order; the earliest (request, matcher) pair whose predicates
all pass determines the single reply (the handler's error status, or the
first element of `Messages`, or the default empty document); when no
buffered request matches any matcher, the call fails with not-found.
Exactly one outcome is produced however many requests were buffered. -/
theorem client_streaming_first_pair (s : Server) (rs : List Request) :
    (s.createClientStreamingHandler rs).2 =
      match firstMatchingPair rs s.matchers with
      | some (r, m) => clientStreamOutcomeOf m r
      | none => .notFound := by
  simp only [Server.createClientStreamingHandler]
  exact clientStreamScan_snd rs s.matchers

/-- C6: for every unary call whose matched matcher has an installed
handler, an error status in the produced response makes the call return
exactly that status with no reply message, regardless of any queued
messages; otherwise the reply is `Messages[0]` when `Messages` is
non-empty, else the default empty document. -/
theorem unary_error_status_precedence (s : Server) (r : Request)
    (m : matcher) (h : Request → Response)
    (hfind : firstMatch s.matchers r = some m) (hh : m.handler = some h) :
    (s.createUnaryHandler r).2 =
      match errOf (h r).Status with
      | some st =>
        .errStatus (mdPairs (h r).Headers) (mdPairs (h r).Trailers) st
      | none =>
        .reply (mdPairs (h r).Headers) (mdPairs (h r).Trailers)
          ((h r).Messages.headD []) := by
  simp only [Server.createUnaryHandler]
  rw [unaryScan_snd r s.matchers, hfind]
  unfold unaryOutcomeOf
  simp only [hh]

/-- Witness for C6: a matched error-status handler with a queued message
returns exactly the status, dropping the message. -/
theorem unary_error_status_precedence_witness :
    firstMatch (srvOf [mErr]).matchers pingReq = some mErr ∧
    mErr.handler = some errHandler ∧
    ((srvOf [mErr]).createUnaryHandler pingReq).2 =
      .errStatus [] [] { Code := 7, Message := "denied".toList } := by
  refine ⟨rfl, rfl, ?_⟩
  have h := unary_error_status_precedence (srvOf [mErr]) pingReq mErr
    errHandler rfl rfl
  rw [h]
  decide

theorem logDelta_refl (received : List Request) (m : matcher) :
    logDelta received m m :=
  ⟨rfl, rfl, [], by simp, List.nil_sublist _, by simp⟩

theorem logDelta_mono {a b : List Request} {m m' : matcher}
    (h : logDelta a m m') (hab : a.Sublist b) : logDelta b m m' := by
  obtain ⟨hf, hh, δ, hreq, hsub, hev⟩ := h
  exact ⟨hf, hh, δ, hreq, hsub.trans hab, hev⟩

theorem logDelta_comp {a b : List Request} {m₁ m₂ m₃ : matcher}
    (h₁ : logDelta a m₁ m₂) (h₂ : logDelta b m₂ m₃) :
    logDelta (a ++ b) m₁ m₃ := by
  obtain ⟨hf₁, hh₁, δ₁, hr₁, hs₁, he₁⟩ := h₁
  obtain ⟨hf₂, hh₂, δ₂, hr₂, hs₂, he₂⟩ := h₂
  refine ⟨hf₂.trans hf₁, hh₂.trans hh₁, δ₁ ++ δ₂, ?_, hs₁.append hs₂, ?_⟩
  · rw [hr₂, hr₁, List.append_assoc]
  · intro x hx
    rcases List.mem_append.mp hx with hx | hx
    · exact he₁ x hx
    · have h2 := he₂ x hx
      unfold matcher.evaluate at h2 ⊢
      rw [← hf₁]
      exact h2

theorem forall₂_logDelta_refl (received : List Request) (ms : List matcher) :
    List.Forall₂ (logDelta received) ms ms :=
  List.forall₂_same.mpr (fun m _ => logDelta_refl received m)

theorem forall₂_logDelta_mono {a b : List Request} {ms ms' : List matcher}
    (h : List.Forall₂ (logDelta a) ms ms') (hab : a.Sublist b) :
    List.Forall₂ (logDelta b) ms ms' :=
  h.imp (fun _ _ hx => logDelta_mono hx hab)

theorem forall₂_logDelta_comp {a b : List Request} {l₁ l₂ l₃ : List matcher}
    (h₁ : List.Forall₂ (logDelta a) l₁ l₂)
    (h₂ : List.Forall₂ (logDelta b) l₂ l₃) :
    List.Forall₂ (logDelta (a ++ b)) l₁ l₃ := by
  induction h₁ generalizing l₃ with
  | nil => cases h₂; exact .nil
  | cons hR hF ih =>
    cases h₂ with
    | cons hS hF' => exact .cons (logDelta_comp hR hS) (ih hF')

theorem logDelta_append_self {r : Request} {m m' : matcher}
    (hf : m'.matchFuncs = m.matchFuncs) (hh : m'.handler = m.handler)
    (hreq : m'.requests = m.requests ++ [r])
    (hev : m.evaluate r = true) : logDelta [r] m m' :=
  ⟨hf, hh, [r], hreq, List.Sublist.refl _, by simpa using hev⟩

/-- The unary matcher loop appends the request only to the log of the
matcher it selects, which the request matched. -/
theorem unaryScan_fst (r : Request) (ms : List matcher) :
    List.Forall₂ (logDelta [r]) ms (unaryScan r ms).1 := by
  induction ms with
  | nil => exact .nil
  | cons m rest ih =>
    simp only [unaryScan, evalLoop_eq_evaluate]
    cases hev : m.evaluate r with
    | false =>
      rcases hrest : unaryScan r rest with ⟨rest', out⟩
      rw [hrest] at ih
      simp only [Bool.false_eq_true, if_false, hrest]
      exact .cons (logDelta_refl _ m) ih
    | true =>
      rw [if_pos rfl]
      cases hh : m.handler with
      | none =>
        simp only [hh]
        exact .cons (logDelta_append_self rfl hh.symm rfl hev) (forall₂_logDelta_refl _ rest)
      | some h =>
        simp only [hh]
        cases herr : errOf (h r).Status <;>
          simp only [herr] <;>
          exact .cons (logDelta_append_self rfl hh.symm rfl hev) (forall₂_logDelta_refl _ rest)

/-- The server-streaming matcher loop appends the request exactly to the
logs of the matchers it fired, each of which the request matched. -/
theorem serverStreamScan_fst (r : Request) (ms : List matcher) :
    List.Forall₂ (logDelta [r]) ms (serverStreamScan r ms).1 := by
  induction ms with
  | nil => exact .nil
  | cons m rest ih =>
    simp only [serverStreamScan, evalLoop_eq_evaluate]
    cases hev : m.evaluate r with
    | false =>
      rcases hrest : serverStreamScan r rest with ⟨rest', out, result⟩
      rw [hrest] at ih
      simp only [Bool.false_eq_true, if_false, hrest]
      exact .cons (logDelta_refl _ m) ih
    | true =>
      rw [if_pos rfl]
      cases hh : m.handler with
      | none =>
        simp only [hh]
        exact .cons (logDelta_append_self rfl hh.symm rfl hev) (forall₂_logDelta_refl _ rest)
      | some h =>
        simp only [hh]
        cases herr : errOf (h r).Status with
        | some st =>
          simp only [herr]
          exact .cons (logDelta_append_self rfl hh.symm rfl hev) (forall₂_logDelta_refl _ rest)
        | none =>
          rcases hrest : serverStreamScan r rest with ⟨rest', out, result⟩
          rw [hrest] at ih
          simp only [herr, hrest]
          exact .cons (logDelta_append_self rfl hh.symm rfl hev) ih

/-- The client-streaming inner loop appends the request only to the log of
the matcher it selects. -/
theorem clientStreamScanMatchers_fst (r : Request) (ms : List matcher) :
    List.Forall₂ (logDelta [r]) ms (clientStreamScanMatchers r ms).1 := by
  induction ms with
  | nil => exact .nil
  | cons m rest ih =>
    simp only [clientStreamScanMatchers, evalLoop_eq_evaluate]
    cases hev : m.evaluate r with
    | false =>
      rcases hrest : clientStreamScanMatchers r rest with ⟨rest', out⟩
      rw [hrest] at ih
      simp only [Bool.false_eq_true, if_false, hrest]
      exact .cons (logDelta_refl _ m) ih
    | true =>
      rw [if_pos rfl]
      cases hh : m.handler with
      | none =>
        simp only [hh]
        exact .cons (logDelta_append_self rfl hh.symm rfl hev) (forall₂_logDelta_refl _ rest)
      | some h =>
        simp only [hh]
        cases herr : errOf (h r).Status <;>
          simp only [herr] <;>
          exact .cons (logDelta_append_self rfl hh.symm rfl hev) (forall₂_logDelta_refl _ rest)

/-- Matcher-log soundness across the whole client-streaming scan. -/
theorem clientStreamScan_fst (rs : List Request) (ms : List matcher) :
    List.Forall₂ (logDelta rs) ms (clientStreamScan rs ms).1 := by
  induction rs generalizing ms with
  | nil => exact forall₂_logDelta_refl [] ms
  | cons r rest ih =>
    rcases hscan : clientStreamScanMatchers r ms with ⟨ms', out⟩
    have hms' := clientStreamScanMatchers_fst r ms
    rw [hscan] at hms'
    cases out with
    | some o =>
      simp only [clientStreamScan, hscan]
      exact forall₂_logDelta_mono hms'
        (List.cons_sublist_cons.mpr (List.nil_sublist rest))
    | none =>
      simp only [clientStreamScan, hscan]
      exact forall₂_logDelta_comp hms' (ih ms')

/-- The bidirectional inner loop appends the message only to the log of
the first matcher it matched. -/
theorem bidiScanMatchers_fst (r : Request) (hs : Bool) (ms : List matcher) :
    List.Forall₂ (logDelta [r]) ms (bidiScanMatchers r hs ms).1 := by
  induction ms with
  | nil => exact .nil
  | cons m rest ih =>
    simp only [bidiScanMatchers, evalLoop_eq_evaluate]
    cases hev : m.evaluate r with
    | false =>
      rcases hrest : bidiScanMatchers r hs rest with ⟨rest', out, step⟩
      rw [hrest] at ih
      simp only [Bool.false_eq_true, if_false, hrest]
      exact .cons (logDelta_refl _ m) ih
    | true =>
      rw [if_pos rfl]
      cases hh : m.handler with
      | none =>
        simp only [hh]
        exact .cons (logDelta_append_self rfl hh.symm rfl hev) (forall₂_logDelta_refl _ rest)
      | some h =>
        simp only [hh]
        cases herr : errOf (h r).Status <;>
          simp only [herr] <;>
          exact .cons (logDelta_append_self rfl hh.symm rfl hev) (forall₂_logDelta_refl _ rest)

/-- Matcher-log soundness across the whole bidirectional receive loop. -/
theorem bidiLoop_fst (hs : Bool) (ms : List matcher) (inputs : List Request) :
    List.Forall₂ (logDelta inputs) ms (bidiLoop hs ms inputs).1 := by
  induction inputs generalizing hs ms with
  | nil => exact forall₂_logDelta_refl [] ms
  | cons r rest ih =>
    rcases hscan : bidiScanMatchers r hs ms with ⟨ms', out, step⟩
    have hms' := bidiScanMatchers_fst r hs ms
    rw [hscan] at hms'
    have hsub : List.Sublist [r] (r :: rest) :=
      List.cons_sublist_cons.mpr (List.nil_sublist rest)
    cases step with
    | noMatch =>
      simp only [bidiLoop, hscan]
      exact forall₂_logDelta_mono hms' hsub
    | panicked =>
      simp only [bidiLoop, hscan]
      exact forall₂_logDelta_mono hms' hsub
    | halted st =>
      simp only [bidiLoop, hscan]
      exact forall₂_logDelta_mono hms' hsub
    | continues hs' =>
      rcases hloop : bidiLoop hs' ms' rest with ⟨ms'', recs, out', result⟩
      have hih := ih hs' ms'
      rw [hloop] at hih
      simp only [bidiLoop, hscan, hloop]
      exact forall₂_logDelta_comp hms' hih

/-- C7: by every call shape, each matcher's own capture log grows only by
requests that satisfied every one of that matcher's predicates, appended
as a subsequence of the received messages (hence in receipt order), while
its predicates and handler are untouched; a request failing any predicate
of a matcher is never appended to that matcher's log. -/
theorem matcher_log_only_matching (s : Server) (r : Request)
    (rs inputs : List Request) :
    List.Forall₂ (logDelta [r]) s.matchers
      (s.createUnaryHandler r).1.matchers ∧
    List.Forall₂ (logDelta [r]) s.matchers
      (s.createServerStreamingHandler r).1.matchers ∧
    List.Forall₂ (logDelta rs) s.matchers
      (s.createClientStreamingHandler rs).1.matchers ∧
    List.Forall₂ (logDelta inputs) s.matchers
      (s.createBiStreamingHandler inputs).1.matchers := by
  refine ⟨?_, ?_, ?_, ?_⟩
  · rcases hscan : unaryScan r s.matchers with ⟨ms', out⟩
    have h := unaryScan_fst r s.matchers
    rw [hscan] at h
    simpa [Server.createUnaryHandler, hscan] using h
  · rcases hscan : serverStreamScan r s.matchers with ⟨ms', out, result⟩
    have h := serverStreamScan_fst r s.matchers
    rw [hscan] at h
    simpa [Server.createServerStreamingHandler, hscan] using h
  · rcases hscan : clientStreamScan rs s.matchers with ⟨ms', out⟩
    have h := clientStreamScan_fst rs s.matchers
    rw [hscan] at h
    simpa [Server.createClientStreamingHandler, hscan] using h
  · rcases hloop : bidiLoop false s.matchers inputs with
      ⟨ms', recs, out, result⟩
    have h := bidiLoop_fst false s.matchers inputs
    rw [hloop] at h
    simpa [Server.createBiStreamingHandler, hloop] using h

theorem msgsOf_append (a b : List Emit) :
    msgsOf (a ++ b) = msgsOf a ++ msgsOf b := by
  unfold msgsOf
  rw [List.filterMap_append]

theorem msgsOf_map_header (l : List (GoStr × GoStr)) :
    msgsOf (l.map (fun kv => Emit.header kv.1 kv.2)) = [] := by
  induction l with
  | nil => rfl
  | cons kv t ih =>
    unfold msgsOf at ih ⊢
    rw [List.map_cons, List.filterMap_cons]
    exact ih

theorem msgsOf_map_trailer (l : List (GoStr × GoStr)) :
    msgsOf (l.map (fun kv => Emit.trailer kv.1 kv.2)) = [] := by
  induction l with
  | nil => rfl
  | cons kv t ih =>
    unfold msgsOf at ih ⊢
    rw [List.map_cons, List.filterMap_cons]
    exact ih

theorem msgsOf_map_msg (l : List Message) :
    msgsOf (l.map Emit.msg) = l := by
  induction l with
  | nil => rfl
  | cons mhd t ih =>
    unfold msgsOf at ih ⊢
    rw [List.map_cons, List.filterMap_cons]
    exact congrArg (List.cons mhd) ih

/-- When every matching matcher has an installed, non-error handler, the
server-streaming scan closes normally and streams exactly the
concatenation of the matching matchers' message lists, in registration
order. -/
theorem serverStreamScan_clean (r : Request) (ms : List matcher)
    (h : ∀ m ∈ ms, m.evaluate r = true → cleanFor r m = true) :
    (serverStreamScan r ms).2.2 = .closed ∧
    msgsOf (serverStreamScan r ms).2.1 =
      ((ms.filter (fun m => m.evaluate r)).map
        (fun m => (responseOf m r).Messages)).flatten := by
  induction ms with
  | nil => exact ⟨rfl, rfl⟩
  | cons m rest ih =>
    have hrest := ih (fun m' hm' => h m' (List.mem_cons_of_mem _ hm'))
    simp only [serverStreamScan, evalLoop_eq_evaluate]
    cases hev : m.evaluate r with
    | false =>
      rcases hscan : serverStreamScan r rest with ⟨rest', out, result⟩
      rw [hscan] at hrest
      simp only [Bool.false_eq_true, if_false, hscan, List.filter_cons, hev]
      exact hrest
    | true =>
      have hclean := h m (List.mem_cons_self m rest) hev
      unfold cleanFor at hclean
      cases hh : m.handler with
      | none => rw [hh] at hclean; simp at hclean
      | some hf =>
        have hresp : responseOf m r = hf r := by
          simp [responseOf, runChain, hh]
        rw [hh, hresp] at hclean
        simp only [Option.isSome_some, Bool.true_and] at hclean
        cases herr : errOf (hf r).Status with
        | some st => rw [herr] at hclean; simp at hclean
        | none =>
          rcases hscan : serverStreamScan r rest with ⟨rest', out, result⟩
          rw [hscan] at hrest
          rw [if_pos rfl]
          simp only [hh, herr, hscan]
          refine ⟨hrest.1, ?_⟩
          simp [List.filter_cons, hev, msgsOf_append, headerEmits,
            trailerEmits, msgEmits, msgsOf_map_header, msgsOf_map_trailer,
            msgsOf_map_msg, hresp, hrest.2]

/-- C5: for a server-streaming call in which every matching matcher has an
installed handler producing a non-error status, every matcher whose
predicates all pass fires in registration order, each sending all elements
of its response's `Messages` as separate streamed replies in order (the
streamed documents are exactly the concatenation of the matching matchers'
message lists), and the stream then closes normally. -/
theorem server_streaming_all_matches (s : Server) (r : Request)
    (h : ∀ m ∈ s.matchers, m.evaluate r = true → cleanFor r m = true) :
    (s.createServerStreamingHandler r).2.2 = .closed ∧
    msgsOf (s.createServerStreamingHandler r).2.1 =
      ((s.matchers.filter (fun m => m.evaluate r)).map
        (fun m => (responseOf m r).Messages)).flatten := by
  rcases hscan : serverStreamScan r s.matchers with ⟨ms', out, result⟩
  have hc := serverStreamScan_clean r s.matchers h
  rw [hscan] at hc
  simpa [Server.createServerStreamingHandler, hscan] using hc

/-- Witness for C5: two matching matchers, one queued message each, give
exactly two streamed replies in registration order and a normal close. -/
theorem server_streaming_all_matches_witness :
    (∀ m ∈ (srvOf [mOk1, mOk2]).matchers,
      m.evaluate pingReq = true → cleanFor pingReq m = true) ∧
    ((srvOf [mOk1, mOk2]).createServerStreamingHandler pingReq).2.2 =
      .closed ∧
    msgsOf
      ((srvOf [mOk1, mOk2]).createServerStreamingHandler pingReq).2.1 =
      [[("n".toList, Val.vnum 1)], [("n".toList, Val.vnum 2)]] := by
  have hyp : ∀ m ∈ (srvOf [mOk1, mOk2]).matchers,
      m.evaluate pingReq = true → cleanFor pingReq m = true := by
    intro m hm _
    rcases List.mem_cons.mp hm with rfl | hm
    · rfl
    rcases List.mem_cons.mp hm with rfl | hm
    · rfl
    · cases hm
  refine ⟨hyp, (server_streaming_all_matches _ _ hyp).1, ?_⟩
  rw [(server_streaming_all_matches _ _ hyp).2]
  decide

/-- The verdict of the bidirectional inner loop, resolved through the
spec's `firstMatch`. -/
theorem bidiScanMatchers_step (r : Request) (hs : Bool) (ms : List matcher) :
    (bidiScanMatchers r hs ms).2.2 =
      match firstMatch ms r with
      | none => .noMatch
      | some m =>
        match m.handler with
        | none => .panicked
        | some h =>
          match errOf (h r).Status with
          | some st => .halted st
          | none => .continues (hs || !(mdPairs (h r).Headers).isEmpty) := by
  induction ms with
  | nil => rfl
  | cons m rest ih =>
    simp only [bidiScanMatchers, firstMatch, List.find?, evalLoop_eq_evaluate]
    cases hev : m.evaluate r with
    | false =>
      rcases hrest : bidiScanMatchers r hs rest with ⟨rest', out, step⟩
      rw [hrest] at ih
      simp only [Bool.false_eq_true, if_false, hrest]
      simpa [firstMatch] using ih
    | true =>
      rw [if_pos rfl]
      cases hh : m.handler with
      | none => simp [hh]
      | some h =>
        simp only [hh]
        cases herr : errOf (h r).Status <;> simp [hh, herr]

theorem forall₂_sameDispatch_of_logDelta {rec : List Request}
    {ms ms' : List matcher} (h : List.Forall₂ (logDelta rec) ms ms') :
    List.Forall₂ sameDispatch ms ms' :=
  h.imp (fun _ _ hx => ⟨hx.1, hx.2.1⟩)

/-- `bidiStepOk` only reads predicates and handlers, which dispatch never
changes. -/
theorem bidiStepOk_congr {ms ms' : List matcher}
    (h : List.Forall₂ sameDispatch ms ms') (r : Request) :
    bidiStepOk ms' r = bidiStepOk ms r := by
  induction h with
  | nil => rfl
  | @cons a b l₁ l₂ h₁ h₂ ih =>
    unfold bidiStepOk firstMatch at ih ⊢
    simp only [List.find?]
    have hev : b.evaluate r = a.evaluate r := by
      unfold matcher.evaluate
      rw [h₁.1]
    rw [hev]
    cases a.evaluate r with
    | false => exact ih
    | true =>
      show cleanFor r b = cleanFor r a
      unfold cleanFor responseOf runChain
      rw [h₁.2]

/-- Matching no matcher is preserved by dispatch. -/
theorem noMatch_congr {r : Request} :
    ∀ {ms ms' : List matcher}, List.Forall₂ sameDispatch ms ms' →
      (∀ m ∈ ms, m.evaluate r = false) →
      ∀ m' ∈ ms', m'.evaluate r = false := by
  intro ms ms' h
  induction h with
  | nil => intro _ m' hm'; cases hm'
  | @cons a b l₁ l₂ h₁ h₂ ih =>
    intro hnone m' hm'
    rcases List.mem_cons.mp hm' with rfl | hm'
    · unfold matcher.evaluate
      rw [h₁.1]
      exact hnone a (List.mem_cons_self _ _)
    · exact ih (fun m hm => hnone m (List.mem_cons_of_mem _ hm)) m' hm'

/-- When every incoming message can be processed cleanly, the
bidirectional loop reaches end-of-input and closes normally. -/
theorem bidiLoop_closed (inputs : List Request) :
    ∀ (hs : Bool) (ms : List matcher),
      (∀ x ∈ inputs, bidiStepOk ms x = true) →
      (bidiLoop hs ms inputs).2.2.2 = .closed := by
  induction inputs with
  | nil => intro hs ms _; rfl
  | cons r rest ih =>
    intro hs ms hok
    have hr := hok r (List.mem_cons_self _ _)
    rcases hscan : bidiScanMatchers r hs ms with ⟨ms', out, step⟩
    have hstep := bidiScanMatchers_step r hs ms
    rw [hscan] at hstep
    simp only at hstep
    unfold bidiStepOk at hr
    cases hfm : firstMatch ms r with
    | none => rw [hfm] at hr; simp at hr
    | some m =>
      rw [hfm] at hstep
      have hr' : cleanFor r m = true := by
        rw [hfm] at hr
        exact hr
      unfold cleanFor at hr'
      cases hh : m.handler with
      | none => rw [hh] at hr'; simp at hr'
      | some h =>
        simp only [hh, Option.isSome_some, Bool.true_and] at hstep hr'
        have hresp : responseOf m r = h r := by
          simp [responseOf, runChain, hh]
        rw [hresp] at hr'
        cases herr : errOf (h r).Status with
        | some st => rw [herr] at hr'; simp at hr'
        | none =>
          simp only [herr] at hstep
          subst hstep
          have hsd : List.Forall₂ sameDispatch ms ms' := by
            have hb := bidiScanMatchers_fst r hs ms
            rw [hscan] at hb
            exact forall₂_sameDispatch_of_logDelta hb
          have hok' : ∀ x ∈ rest, bidiStepOk ms' x = true := by
            intro x hx
            rw [bidiStepOk_congr hsd x]
            exact hok x (List.mem_cons_of_mem _ hx)
          rcases hloop : bidiLoop (hs || !(mdPairs (h r).Headers).isEmpty)
              ms' rest with ⟨ms'', recs, out', result⟩
          have hc := ih (hs || !(mdPairs (h r).Headers).isEmpty) ms' hok'
          rw [hloop] at hc
          simp only [bidiLoop, hscan, hloop]
          exact hc

/-- A message matching no matcher terminates the bidirectional loop with
not-found, right after being recorded; nothing after it is received. -/
theorem bidiLoop_notFound (rs1 : List Request) :
    ∀ (hs : Bool) (ms : List matcher) (r : Request) (rs2 : List Request),
      (∀ x ∈ rs1, bidiStepOk ms x = true) →
      (∀ m ∈ ms, m.evaluate r = false) →
      (bidiLoop hs ms (rs1 ++ r :: rs2)).2.2.2 = .notFound ∧
      (bidiLoop hs ms (rs1 ++ r :: rs2)).2.1 = rs1 ++ [r] := by
  induction rs1 with
  | nil =>
    intro hs ms r rs2 _ hnone
    have hfm : firstMatch ms r = none := by
      unfold firstMatch
      rw [List.find?_eq_none]
      intro m hm
      simp [hnone m hm]
    rcases hscan : bidiScanMatchers r hs ms with ⟨ms', out, step⟩
    have hstep := bidiScanMatchers_step r hs ms
    rw [hscan, hfm] at hstep
    simp only at hstep
    subst hstep
    constructor <;> simp [bidiLoop, hscan]
  | cons r1 rs1' ih =>
    intro hs ms r rs2 hok hnone
    have hr1 := hok r1 (List.mem_cons_self _ _)
    rcases hscan : bidiScanMatchers r1 hs ms with ⟨ms', out, step⟩
    have hstep := bidiScanMatchers_step r1 hs ms
    rw [hscan] at hstep
    simp only at hstep
    unfold bidiStepOk at hr1
    cases hfm : firstMatch ms r1 with
    | none => rw [hfm] at hr1; simp at hr1
    | some m =>
      rw [hfm] at hstep
      have hr1' : cleanFor r1 m = true := by
        rw [hfm] at hr1
        exact hr1
      unfold cleanFor at hr1'
      cases hh : m.handler with
      | none => rw [hh] at hr1'; simp at hr1'
      | some h =>
        simp only [hh, Option.isSome_some, Bool.true_and] at hstep hr1'
        have hresp : responseOf m r1 = h r1 := by
          simp [responseOf, runChain, hh]
        rw [hresp] at hr1'
        cases herr : errOf (h r1).Status with
        | some st => rw [herr] at hr1'; simp at hr1'
        | none =>
          simp only [herr] at hstep
          subst hstep
          have hsd : List.Forall₂ sameDispatch ms ms' := by
            have hb := bidiScanMatchers_fst r1 hs ms
            rw [hscan] at hb
            exact forall₂_sameDispatch_of_logDelta hb
          have hok' : ∀ x ∈ rs1', bidiStepOk ms' x = true := by
            intro x hx
            rw [bidiStepOk_congr hsd x]
            exact hok x (List.mem_cons_of_mem _ hx)
          have hnone' : ∀ m' ∈ ms', m'.evaluate r = false :=
            noMatch_congr hsd hnone
          rcases hloop : bidiLoop (hs || !(mdPairs (h r1).Headers).isEmpty)
              ms' (rs1' ++ r :: rs2) with ⟨ms'', recs, out', result⟩
          have hrec := ih (hs || !(mdPairs (h r1).Headers).isEmpty)
            ms' r rs2 hok' hnone'
          rw [hloop] at hrec
          simp only at hrec
          constructor
          · simp only [List.cons_append, bidiLoop, hscan, List.append_eq,
              hloop]
            exact hrec.1
          · simp only [List.cons_append, bidiLoop, hscan, List.append_eq,
              hloop]
            simp [hrec.2]

/-- C8: for every bidirectional call, when end-of-input arrives (all
received messages having been processed cleanly) the stream closes
normally with no error, and when a received message matches no registered
matcher the stream terminates immediately with the not-found outcome, the
unmatched message having still been recorded in the global capture log
(and nothing beyond it). -/
theorem bidi_close_and_notfound (s : Server) (inputs rs1 rs2 : List Request)
    (r : Request)
    (h1 : ∀ x ∈ inputs, bidiStepOk s.matchers x = true)
    (h2 : ∀ x ∈ rs1, bidiStepOk s.matchers x = true)
    (h3 : ∀ m ∈ s.matchers, m.evaluate r = false) :
    (s.createBiStreamingHandler inputs).2.2 = .closed ∧
    (s.createBiStreamingHandler (rs1 ++ r :: rs2)).2.2 = .notFound ∧
    (s.createBiStreamingHandler (rs1 ++ r :: rs2)).1.requests
      = s.requests ++ (rs1 ++ [r]) := by
  refine ⟨?_, ?_, ?_⟩
  · rcases hloop : bidiLoop false s.matchers inputs with
      ⟨ms', recs, out, result⟩
    have h := bidiLoop_closed inputs false s.matchers h1
    rw [hloop] at h
    simpa [Server.createBiStreamingHandler, hloop] using h
  · rcases hloop : bidiLoop false s.matchers (rs1 ++ r :: rs2) with
      ⟨ms', recs, out, result⟩
    have h := (bidiLoop_notFound rs1 false s.matchers r rs2 h2 h3).1
    rw [hloop] at h
    simpa [Server.createBiStreamingHandler, hloop] using h
  · rcases hloop : bidiLoop false s.matchers (rs1 ++ r :: rs2) with
      ⟨ms', recs, out, result⟩
    have h := (bidiLoop_notFound rs1 false s.matchers r rs2 h2 h3).2
    rw [hloop] at h
    simp only at h
    simp [Server.createBiStreamingHandler, hloop, h]

/-- Witness for C8: a `Ping`-only matcher; two clean `Ping` messages close
normally at end-of-input, and a `Ping` followed by an unmatched `Other`
terminates with not-found having logged exactly those two. -/
theorem bidi_close_and_notfound_witness :
    (∀ x ∈ [pingReq, pingReq], bidiStepOk (srvOf [mPing]).matchers x = true) ∧
    (∀ x ∈ [pingReq], bidiStepOk (srvOf [mPing]).matchers x = true) ∧
    (∀ m ∈ (srvOf [mPing]).matchers, m.evaluate otherReq = false) ∧
    ((srvOf [mPing]).createBiStreamingHandler [pingReq, pingReq]).2.2 =
      .closed ∧
    ((srvOf [mPing]).createBiStreamingHandler
      ([pingReq] ++ otherReq :: [pingReq])).2.2 = .notFound ∧
    ((srvOf [mPing]).createBiStreamingHandler
      ([pingReq] ++ otherReq :: [pingReq])).1.requests =
      [pingReq, otherReq] := by
  have h1 : ∀ x ∈ [pingReq, pingReq],
      bidiStepOk (srvOf [mPing]).matchers x = true := by decide
  have h2 : ∀ x ∈ [pingReq],
      bidiStepOk (srvOf [mPing]).matchers x = true := by decide
  have h3 : ∀ m ∈ (srvOf [mPing]).matchers,
      m.evaluate otherReq = false := by decide
  have h := bidi_close_and_notfound (srvOf [mPing]) [pingReq, pingReq]
    [pingReq] [pingReq] otherReq h1 h2 h3
  exact ⟨h1, h2, h3, h.1, h.2.1, h.2.2⟩

/-- Counterexample to C9: a server that was started and then closed is in
the closed state with its listener still set, so `Addr` (and likewise
`Conn` and `Close`) proceeds without reporting any usage error — the
claim's "operations on a Server in the closing or closed state are
reported as usage errors" fails on the code, which only guards a nil
listener. -/
theorem closed_server_ops_report_no_usage_error :
    closedSrv.status = serverStatus.status_closed ∧
    (Server.Addr closedSrv).1 = [] ∧
    (Server.Addr closedSrv).2 = "127.0.0.1:4242".toList ∧
    (Server.Conn closedSrv).2.1 = [] ∧
    (Server.Close closedSrv).2 = [] := by
  decide

/-- C9 amended: `Addr`, `Conn` and `Close` report the "server is not
started yet" usage error to the test reporter — never panicking — exactly
when the listener was never established (an unknown/failed-start server);
after a successful start the listener stays set through closing and
closed, so these operations do not report a usage error there.  `Close`
always leaves the server in the closed state. -/
theorem listener_guard_usage_error (s : Server) :
    (Server.Addr s).1.isEmpty = s.listener.isSome ∧
    (Server.Conn s).2.1.isEmpty = s.listener.isSome ∧
    (Server.Close s).2.isEmpty = s.listener.isSome ∧
    (Server.Close s).1.status = serverStatus.status_closed := by
  cases h : s.listener <;>
    simp [Server.Addr, Server.Conn, Server.Close, h]

/-! Lemmas about the Go split/join computation of `methodMatchFunc`. -/

theorem goSplit_ne_nil (c : Char) (t : GoStr) : goSplit c t ≠ [] := by
  induction t with
  | nil => simp [goSplit]
  | cons x xs ih =>
    simp only [goSplit]
    by_cases hx : x = c
    · simp [hx]
    · simp only [if_neg hx]
      cases hrest : goSplit c xs with
      | nil => simp
      | cons hgo tgo => simp

theorem goJoin_cons (sep x : GoStr) (rest : List GoStr) (h : rest ≠ []) :
    goJoin sep (x :: rest) = x ++ sep ++ goJoin sep rest := by
  cases rest with
  | nil => exact absurd rfl h
  | cons y t => rfl

/-- Joining the pieces of a split restores the original string. -/
theorem goJoin_goSplit (c : Char) (t : GoStr) :
    goJoin [c] (goSplit c t) = t := by
  induction t with
  | nil => rfl
  | cons x xs ih =>
    simp only [goSplit]
    by_cases hx : x = c
    · subst hx
      rw [if_pos rfl, goJoin_cons _ _ _ (goSplit_ne_nil x xs), ih]
      rfl
    · rw [if_neg hx]
      cases hrest : goSplit c xs with
      | nil => exact absurd hrest (goSplit_ne_nil c xs)
      | cons hgo tgo =>
        rw [hrest] at ih
        cases tgo with
        | nil => simpa [goJoin] using congrArg (List.cons x) ih
        | cons t2 tt =>
          simp only [goJoin] at ih ⊢
          rw [← ih]
          simp

/-- No piece of a split contains the separator. -/
theorem goSplit_no_sep (c : Char) (t : GoStr) :
    ∀ p ∈ goSplit c t, c ∉ p := by
  induction t with
  | nil =>
    intro p hp
    simp only [goSplit, List.mem_singleton] at hp
    subst hp
    simp
  | cons x xs ih =>
    intro p hp
    simp only [goSplit] at hp
    by_cases hx : x = c
    · rw [if_pos hx] at hp
      rcases List.mem_cons.mp hp with rfl | hp
      · simp
      · exact ih p hp
    · rw [if_neg hx] at hp
      cases hrest : goSplit c xs with
      | nil => exact absurd hrest (goSplit_ne_nil c xs)
      | cons hgo tgo =>
        rw [hrest] at hp
        rcases List.mem_cons.mp hp with rfl | hp
        · intro hc
          rcases List.mem_cons.mp hc with rfl | hc
          · exact hx rfl
          · exact ih hgo (by rw [hrest]; exact List.mem_cons_self _ _) hc
        · exact ih p (by rw [hrest]; exact List.mem_cons_of_mem _ hp)

/-- Splitting a string free of the separator yields that one piece. -/
theorem goSplit_of_not_mem (c : Char) (t : GoStr) (h : c ∉ t) :
    goSplit c t = [t] := by
  induction t with
  | nil => rfl
  | cons x xs ih =>
    have hx : ¬ x = c := by
      intro hxc
      exact h (by rw [hxc]; exact List.mem_cons_self _ _)
    have h' : c ∉ xs := fun hc => h (List.mem_cons_of_mem _ hc)
    simp only [goSplit, if_neg hx, ih h']

theorem goJoin_concat (sep : GoStr) (qs : List GoStr) (a : GoStr)
    (h : qs ≠ []) :
    goJoin sep (qs ++ [a]) = goJoin sep qs ++ sep ++ a := by
  induction qs with
  | nil => exact absurd rfl h
  | cons x xs ih =>
    cases xs with
    | nil => rfl
    | cons y ys =>
      rw [List.cons_append, goJoin_cons sep x ((y :: ys) ++ [a]) (by simp),
        ih (by simp)]
      simp only [goJoin]
      simp [List.append_assoc]

theorem takeWhile_middle (p : Char → Bool) (u v : GoStr) (y : Char)
    (hu : ∀ x ∈ u, p x = true) (hy : p y = false) :
    (u ++ y :: v).takeWhile p = u ∧ (u ++ y :: v).dropWhile p = y :: v := by
  induction u with
  | nil => simp [List.takeWhile_cons, List.dropWhile_cons, hy]
  | cons x xs ih =>
    have hx := hu x (List.mem_cons_self _ _)
    have ih' := ih (fun z hz => hu z (List.mem_cons_of_mem _ hz))
    simp [List.takeWhile_cons, List.dropWhile_cons, hx, ih'.1, ih'.2]

theorem takeWhile_all (p : Char → Bool) (l : GoStr)
    (h : ∀ x ∈ l, p x = true) : l.takeWhile p = l := by
  induction l with
  | nil => rfl
  | cons x xs ih =>
    simp [List.takeWhile_cons, h x (List.mem_cons_self _ _),
      ih (fun z hz => h z (List.mem_cons_of_mem _ hz))]

theorem dropWhile_all (p : Char → Bool) (l : GoStr)
    (h : ∀ x ∈ l, p x = true) : l.dropWhile p = [] := by
  induction l with
  | nil => rfl
  | cons x xs ih =>
    simp [List.dropWhile_cons, h x (List.mem_cons_self _ _),
      ih (fun z hz => h z (List.mem_cons_of_mem _ hz))]

/-- `afterLastSlash` and `beforeLastSlash` on an explicit last-slash
decomposition. -/
theorem lastSlash_spec (b a : GoStr) (ha : ('/' : Char) ∉ a) :
    afterLastSlash (b ++ '/' :: a) = a ∧
    beforeLastSlash (b ++ '/' :: a) = b := by
  have hrev : (b ++ '/' :: a).reverse = a.reverse ++ '/' :: b.reverse := by
    rw [List.reverse_append, List.reverse_cons, List.append_assoc]
    simp
  have hmem : ∀ x ∈ a.reverse, (x != '/') = true := by
    intro x hx
    have hxa : x ∈ a := List.mem_reverse.mp hx
    simp only [bne_iff_ne, ne_eq]
    intro hxe
    exact ha (hxe ▸ hxa)
  have hy : (('/' : Char) != '/') = false := by simp
  have hdec := takeWhile_middle (fun ch => ch != '/') a.reverse b.reverse '/'
    hmem hy
  unfold afterLastSlash beforeLastSlash
  rw [hrev, hdec.1, hdec.2]
  constructor
  · exact List.reverse_reverse a
  · simp

/-- C10: for every matcher built via `Method(name)`: when `name` contains
no '/', the predicate is true exactly when the request's `Method` equals
`name`, ignoring `Service` entirely; when `name` contains a '/', the
predicate is true exactly when `Service` equals the part of `name` before
its last '/' (with the leading '/' stripped) and `Method` equals the part
after it. -/
theorem method_predicate (name : GoStr) (r : Request) :
    (name.contains '/' = false →
      methodMatchFunc name r = (r.Method == name)) ∧
    (name.contains '/' = true →
      (methodMatchFunc name r = true ↔
        r.Service = beforeLastSlash (trimSlash name) ∧
        r.Method = afterLastSlash (trimSlash name))) := by
  constructor
  · intro h
    simp only [methodMatchFunc, h, Bool.not_false]
    rw [if_pos trivial]
  · intro h
    simp only [methodMatchFunc, h, Bool.not_true, Bool.false_eq_true,
      if_false]
    by_cases hct : ('/' : Char) ∈ trimSlash name
    · obtain ⟨qs, lastp, hqs⟩ : ∃ qs lastp,
          goSplit '/' (trimSlash name) = qs ++ [lastp] := by
        have hne := goSplit_ne_nil '/' (trimSlash name)
        exact ⟨(goSplit '/' (trimSlash name)).dropLast,
          (goSplit '/' (trimSlash name)).getLast hne,
          (List.dropLast_append_getLast hne).symm⟩
      have hjoin := goJoin_goSplit '/' (trimSlash name)
      rw [hqs] at hjoin
      have hlast_nosep : ('/' : Char) ∉ lastp := by
        apply goSplit_no_sep '/' (trimSlash name)
        rw [hqs]
        exact List.mem_append.mpr (Or.inr (List.mem_singleton.mpr rfl))
      have hqs_ne : qs ≠ [] := by
        intro hqnil
        rw [hqnil, List.nil_append] at hjoin
        exact hlast_nosep
          (by rw [show lastp = trimSlash name from hjoin]; exact hct)
      rw [goJoin_concat ['/'] qs lastp hqs_ne] at hjoin
      have hdecomp : trimSlash name = goJoin ['/'] qs ++ '/' :: lastp := by
        rw [← hjoin]
        simp [List.append_assoc]
      have hspec := lastSlash_spec (goJoin ['/'] qs) lastp hlast_nosep
      rw [hqs, List.dropLast_concat, List.getLastD_concat]
      rw [hdecomp, hspec.1, hspec.2]
      simp [Bool.and_eq_true, beq_iff_eq]
    · rw [goSplit_of_not_mem '/' (trimSlash name) hct]
      have hall : ∀ x ∈ (trimSlash name).reverse, (x != '/') = true := by
        intro x hx
        have hxt : x ∈ trimSlash name := List.mem_reverse.mp hx
        simp only [bne_iff_ne, ne_eq]
        intro hxe
        exact hct (hxe ▸ hxt)
      have hbefore : beforeLastSlash (trimSlash name) = [] := by
        unfold beforeLastSlash
        rw [dropWhile_all _ _ hall]
        rfl
      have hafter : afterLastSlash (trimSlash name) = trimSlash name := by
        unfold afterLastSlash
        rw [takeWhile_all _ _ hall]
        exact List.reverse_reverse _
      rw [hbefore, hafter]
      simp [Bool.and_eq_true, beq_iff_eq, goJoin]

/-- Witness for C10 at a slash-free and a fully-qualified method name. -/
theorem method_predicate_witness :
    ("GetFeature".toList.contains '/' = false ∧
      methodMatchFunc "GetFeature".toList featureReq =
        (featureReq.Method == "GetFeature".toList)) ∧
    ("/routeguide.RouteGuide/GetFeature".toList.contains '/' = true ∧
      (methodMatchFunc "/routeguide.RouteGuide/GetFeature".toList
          featureReq = true ↔
        featureReq.Service =
          beforeLastSlash
            (trimSlash "/routeguide.RouteGuide/GetFeature".toList) ∧
        featureReq.Method =
          afterLastSlash
            (trimSlash "/routeguide.RouteGuide/GetFeature".toList))) :=
  ⟨⟨by decide,
      (method_predicate "GetFeature".toList featureReq).1 (by decide)⟩,
   ⟨by decide,
      (method_predicate "/routeguide.RouteGuide/GetFeature".toList
        featureReq).2 (by decide)⟩⟩

end Grpcstub
